import Mathlib

/-!
Verification of the `statical` virtual file system (`fs/fs.go`) against its
natural-language specification.

The Go code is shallowly embedded: Go strings are Lean `String`s (manipulated
through their `List Char` data, which matches Go's byte-wise view because the
paths involved are compared lexicographically and UTF-8 preserves code-point
order), Go maps are association lists with replace-on-insert update (a fixed
iteration order; all constructions below are insensitive to map order, see the
comments at `synthesize` and `buildDirs`), byte slices are `List Nat`, and the
`nil`-pointer dereference of `bytes.Reader` is modelled by an `Option` result
where `none` is a crash.
-/

set_option autoImplicit false

namespace Statical

/-! ### Go `path` package primitives (`path.Clean`, `path.Dir`, `path.Base`,
`path.Join`), embedded from the Go standard library, which `fs.go` calls. -/

/-- `strings.Split(s, "/")` on character lists: split at every `'/'`. -/
def splitSlash : List Char → List (List Char)
  | [] => [[]]
  | c :: rest =>
    let segs := splitSlash rest
    if c = '/' then [] :: segs
    else
      match segs with
      | s :: ss => (c :: s) :: ss
      | [] => [[c]]

/-- Join segments with `'/'` separators (inverse of `splitSlash`). -/
def joinSegs : List (List Char) → List Char
  | [] => []
  | [s] => s
  | s :: rest => s ++ '/' :: joinSegs rest

/-- The effect of one `".."` segment on the output stack of `path.Clean`:
pop the previous real segment, or vanish at the root of a rooted path, or
accumulate at the front of an unrooted path. -/
def popDotDot (rooted : Bool) (acc : List (List Char)) : List (List Char) :=
  match acc with
  | [] => if rooted then [] else [['.', '.']]
  | top :: accTail =>
    if top = ['.', '.'] then ['.', '.'] :: top :: accTail else accTail

/-- The element-processing loop of Go's `path.Clean`: drop empty and `"."`
segments, process `".."` with `popDotDot`, push every other segment. `acc`
is the stack of output segments in reverse order. -/
def cleanLoop (rooted : Bool) (acc : List (List Char)) : List (List Char) → List (List Char)
  | [] => acc.reverse
  | seg :: rest =>
    if seg = [] ∨ seg = ['.'] then cleanLoop rooted acc rest
    else if seg = ['.', '.'] then cleanLoop rooted (popDotDot rooted acc) rest
    else cleanLoop rooted (seg :: acc) rest

/-- Go `path.Clean` on character lists. -/
def cleanList (p : List Char) : List Char :=
  if p = [] then ['.']
  else
    let rooted := p.head? = some '/'
    let out := cleanLoop rooted [] (splitSlash p)
    if out = [] then (if rooted then ['/'] else ['.'])
    else if rooted then '/' :: joinSegs out else joinSegs out

/-- The directory part of Go `path.Split`: everything up to and including the
final `'/'` (empty when the path holds no `'/'`). -/
def dirPart (p : List Char) : List Char :=
  (p.reverse.dropWhile (fun c => c ≠ '/')).reverse

/-- Go `path.Dir`. -/
def pDir (s : String) : String := ⟨cleanList (dirPart s.data)⟩

/-- Go `path.Base` on character lists. -/
def pBaseList (p : List Char) : List Char :=
  if p = [] then ['.']
  else
    let q := (p.reverse.dropWhile (fun c => c = '/')).reverse
    let r := (q.reverse.takeWhile (fun c => c ≠ '/')).reverse
    if r = [] then ['/'] else r

/-- Go `path.Base`. -/
def pBase (s : String) : String := ⟨pBaseList s.data⟩

/-- Go `path.Join(a, b)`: concatenate the non-empty arguments with a `'/'`
and clean the result (`""` if both arguments are empty). -/
def pJoin (a b : String) : String :=
  if a = "" ∧ b = "" then ""
  else if a = "" then ⟨cleanList b.data⟩
  else if b = "" then ⟨cleanList a.data⟩
  else ⟨cleanList (a.data ++ '/' :: b.data)⟩

/-- Go `strings.Replace(s, "//", "/", -1)`: one left-to-right pass replacing
non-overlapping occurrences of `"//"` by `"/"`. -/
def collapseSlashes : List Char → List Char
  | [] => []
  | [c] => [c]
  | c1 :: c2 :: rest =>
    if c1 = '/' ∧ c2 = '/' then '/' :: collapseSlashes rest
    else c1 :: collapseSlashes (c2 :: rest)

/-- The path normalization performed by `Open`. -/
def goReplaceDouble (s : String) : String := ⟨collapseSlashes s.data⟩

/-- Decidable test for a doubled separator in a character list. -/
def hasDoubleSlash : List Char → Bool
  | [] => false
  | [_] => false
  | c1 :: c2 :: rest =>
    if c1 = '/' ∧ c2 = '/' then true else hasDoubleSlash (c2 :: rest)

/-- A rooted (absolute) path: the first character is `'/'`. -/
def rooted (s : String) : Prop := s.data.head? = some '/'

instance (s : String) : Decidable (rooted s) := by unfold rooted; infer_instance

/-! ### Association lists standing in for Go maps. -/

/-- Go map read `m[k]` (as `v, ok`): the value at the first matching key. -/
def alGet {α : Type} : List (String × α) → String → Option α
  | [], _ => none
  | (k, v) :: rest, q => if k = q then some v else alGet rest q

/-- Go map membership test. -/
def alHas {α : Type} (l : List (String × α)) (q : String) : Bool :=
  (alGet l q).isSome

/-- Go map write `m[k] = v`: replace the binding if present, else append. -/
def alPut {α : Type} : List (String × α) → String → α → List (String × α)
  | [], k, v => [(k, v)]
  | (k', v') :: rest, k, v =>
    if k' = k then (k', v) :: rest else (k', v') :: alPut rest k v

/-- The key list of a Go map (its iteration snapshot). -/
def alKeys {α : Type} (l : List (String × α)) : List String := l.map Prod.fst

/-! ### Data model of `fs.go`. -/

/-- An `os.FileInfo` value as `fs.go` can hold one: either metadata coming from
an archive record (`zipFile.FileInfo()`, carrying the record's name and its
directory flag), or the synthesized `dirInfo` for a directory created during
directory synthesis, or Go's `nil` interface value (the `FileInfo` of a zero
`File`, as produced by reading a missing key from the `Files` map). -/
inductive GoFileInfo : Type where
  | archive (name : String) (dir : Bool)
  | dirInfo (name : String)
  | nilInfo
  deriving DecidableEq, Repr

/-- `IsDir()` of a (non-nil) `os.FileInfo`: the archive record's flag, and
`true` for every synthesized `dirInfo`. -/
def GoFileInfo.goIsDir : GoFileInfo → Bool
  | .archive _ d => d
  | .dirInfo _ => true
  | .nilInfo => false

/-- `Name()` of an `os.FileInfo`: both the zip header info and `dirInfo`
report `path.Base` of the stored name (`""` stands for the nil interface,
whose method call would crash; it is unreachable from built trees). -/
def GoFileInfo.goName : GoFileInfo → String
  | .archive n _ => pBase n
  | .dirInfo n => pBase n
  | .nilInfo => ""

/-- The `File` struct of `fs.go`: unzipped read-only contents plus metadata.
The Go back-pointer `Fs *StaticalFS` is modelled by passing the file system
explicitly to the operations that consult it. -/
structure File : Type where
  info : GoFileInfo
  data : List Nat
  deriving DecidableEq, Repr

/-- The zero value of Go's `File` struct (nil `FileInfo`, nil `Data`). -/
def zeroFile : File := ⟨.nilInfo, []⟩

/-- The `StaticalFS` struct: the entries map and the parent→children index. -/
structure StaticalFS : Type where
  Files : List (String × File)
  Dirs : List (String × List String)
  deriving DecidableEq, Repr

/-- The empty file system (used only as a `getD` fallback in closed
statements about concrete builds). -/
def emptyFS : StaticalFS := ⟨[], []⟩

/-- One record of the parsed zip archive, as `New` consumes it: the header
name, the directory flag of its `FileInfo`, and the result of `unzip` on it
(`Except` models the per-record extraction error). -/
structure ZRecord : Type where
  name : String
  dir : Bool
  unzipped : Except String (List Nat)
  deriving Repr

/-- A successfully extracted plain-file record (shorthand for statements). -/
def fileRec (name : String) (content : List Nat) : ZRecord :=
  ⟨name, false, .ok content⟩

/-- A successfully extracted explicit directory record. -/
def dirRec (name : String) : ZRecord := ⟨name, true, .ok []⟩

/-- The errors `New` can return: no registered data, an unparseable blob, or
a record that failed to unzip (with the record's name, as in the
`fmt.Errorf` of `New`). -/
inductive NewErr : Type where
  | notConfigured
  | corrupt (msg : String)
  | extract (name msg : String)
  deriving DecidableEq, Repr

/-! ### Construction (`New`). -/

/-- The first loop of `New`: unzip each record and store it in `Files` under
the key `"/" + name`, stopping at the first extraction failure. -/
def buildFilesLoop (acc : List (String × File)) :
    List ZRecord → Except NewErr (List (String × File))
  | [] => .ok acc
  | r :: rest =>
    match r.unzipped with
    | .error e => .error (.extract r.name e)
    | .ok d => buildFilesLoop (alPut acc ("/" ++ r.name) ⟨.archive r.name r.dir, d⟩) rest

/-- The inner ancestor walk of the directory-synthesis loop of `New`: from
`fn`, repeatedly take `path.Dir`, inserting a synthesized `dirInfo` entry for
each missing ancestor and stopping at the first ancestor already present (or
at a `path.Dir` fixpoint). The fuel bounds the walk; `fn.length` steps always
suffice because `path.Dir` strictly shortens a rooted non-root path. -/
def synthWalk : List (String × File) → String → Nat → List (String × File)
  | files, _, 0 => files
  | files, fn, fuel + 1 =>
    let dn := pDir fn
    if dn = fn then files
    else if alHas files dn then files
    else synthWalk (alPut files dn ⟨.dirInfo dn, []⟩) dn fuel

/-- The directory-synthesis loop of `New`: run the ancestor walk from every
key of the freshly unzipped map. Go iterates over the map being mutated;
the Go specification allows entries added during iteration to be skipped,
and this model iterates over the snapshot of the original keys (the final
map does not depend on the order or on whether synthesized keys are
revisited, since a walk from a synthesized key stops immediately). -/
def synthFold (files : List (String × File)) (ks : List String) : List (String × File) :=
  ks.foldl (fun acc fn => synthWalk acc fn fn.length) files

def synthesize (files : List (String × File)) : List (String × File) :=
  synthFold files (alKeys files)

/-- Strict byte-wise lexicographic comparison of character lists: the order
Go's `sort.Strings` sorts by (Go compares strings byte-wise, and UTF-8 byte
order agrees with code-point order). -/
def lexLt : List Char → List Char → Bool
  | _, [] => false
  | [], _ :: _ => true
  | a :: as, b :: bs =>
    if a.toNat < b.toNat then true
    else if b.toNat < a.toNat then false
    else lexLt as bs

/-- The reflexive byte-wise lexicographic comparison. -/
def lexLe : List Char → List Char → Bool
  | [], _ => true
  | _ :: _, [] => false
  | a :: as, b :: bs =>
    if a.toNat < b.toNat then true
    else if b.toNat < a.toNat then false
    else lexLe as bs

/-- Go string order `a < b`. -/
def goStrLt (a b : String) : Bool := lexLt a.data b.data

/-- Go string order `a ≤ b`. -/
def goStrLe (a b : String) : Bool := lexLe a.data b.data

/-- Insertion sort by Go string order; `sort.Strings` produces the unique
sorted permutation, which this computes as well. -/
def goSortStrings (l : List String) : List String :=
  l.insertionSort (fun a b => goStrLe a b = true)

/-- One step of the index-construction loop of `New`: append `path.Base(fn)`
to `Dirs[path.Dir(fn)]` when `fn ≠ path.Dir(fn)` (a missing key reads as the
zero value `[]`, as in Go). -/
def dirsStep (acc : List (String × List String)) (fn : String) : List (String × List String) :=
  let dn := pDir fn
  if fn ≠ dn then alPut acc dn ((alGet acc dn).getD [] ++ [pBase fn]) else acc

/-- The index-construction loops of `New`: run `dirsStep` over every key of
the final entries map, then sort every child list (the sort makes the result
independent of the map order). -/
def buildDirs (files : List (String × File)) : List (String × List String) :=
  ((alKeys files).foldl dirsStep []).map (fun kv => (kv.1, goSortStrings kv.2))

/-- The archive-consuming part of `New`, from the parsed record list to the
finished file system: unzip everything into `Files`, synthesize missing
directories, build and sort the `Dirs` index. -/
def buildFS (rs : List ZRecord) : Except NewErr StaticalFS :=
  match buildFilesLoop [] rs with
  | .error e => .error e
  | .ok files0 =>
    let files := synthesize files0
    .ok ⟨files, buildDirs files⟩

/-- `Register`: assign the package-level `ZipData` variable. -/
def Register (data : String) (_zipData : String) : String := data

/-- The initial value of the `ZipData` variable (no registration yet). -/
def initialZipData : String := ""

/-- `New` with the process-wide state made explicit: fail with the
not-configured error when `ZipData` is empty, otherwise parse the blob with
the zip reader (abstracted as the `parse` argument, failing with the reader's
error) and build the file system from the records. -/
def NewFS (parse : String → Except String (List ZRecord)) (zipData : String) :
    Except NewErr StaticalFS :=
  if zipData = "" then .error .notConfigured
  else
    match parse zipData with
    | .error e => .error (.corrupt e)
    | .ok rs => buildFS rs

/-! ### Handles (`httpFile`) and their operations. -/

/-- A `bytes.Reader`: the backing bytes and the read offset. -/
structure ByteReader : Type where
  data : List Nat
  pos : Nat
  deriving DecidableEq, Repr

/-- The `httpFile` struct: the embedded `File`, the (possibly nil) byte
reader, the directory flag, and the enumeration cursor `dirIdx`. -/
structure HttpFile : Type where
  file : File
  reader : Option ByteReader
  isDirFlag : Bool
  dirIdx : Nat
  deriving DecidableEq, Repr

/-- `newHTTPFile`: a directory gets a nil reader and the directory flag; a
regular file gets a `bytes.Reader` over its data. -/
def newHTTPFile (f : File) : HttpFile :=
  if f.info.goIsDir then ⟨f, none, true, 0⟩
  else ⟨f, some ⟨f.data, 0⟩, false, 0⟩

/-- The error values surfaced by the handle operations: `io.EOF`,
`os.ErrNotExist`, and the `fmt.Errorf("failed to read directory: %q", ...)`
of `Readdir`. -/
inductive GoErr : Type where
  | eof
  | notExist
  | failedToReadDir (name : String)
  deriving DecidableEq, Repr

/-- `Open`: collapse doubled separators in the name, then answer exactly the
normalized name from the `Files` map, or `os.ErrNotExist`. -/
def Open (fs : StaticalFS) (name : String) : Except GoErr HttpFile :=
  match alGet fs.Files (goReplaceDouble name) with
  | some f => .ok (newHTTPFile f)
  | none => .error .notExist

/-- `bytes.Reader.Read` into a buffer of size `n`: end-of-data when the
offset is at or past the end, otherwise up to `n` bytes from the offset. -/
def readerRead (r : ByteReader) (n : Nat) : (List Nat × Option GoErr) × ByteReader :=
  if r.data.length ≤ r.pos then (([], some .eof), r)
  else
    let chunk := (r.data.drop r.pos).take n
    ((chunk, none), ⟨r.data, r.pos + chunk.length⟩)

/-- `httpFile.Read` with a buffer of size `n`. A nil reader on a directory
yields `(0, io.EOF)`; otherwise the call goes to the reader (`none` models
the nil-pointer crash of `f.reader.Read` with no directory flag). -/
def Read (f : HttpFile) (n : Nat) : Option ((List Nat × Option GoErr) × HttpFile) :=
  if f.reader.isNone ∧ f.isDirFlag then some (([], some .eof), f)
  else
    match f.reader with
    | none => none
    | some r =>
      let res := readerRead r n
      some (res.1, { f with reader := some res.2 })

/-- `httpFile.Seek` delegates to `f.reader.Seek` unconditionally: on a nil
reader (`none`) the call dereferences a nil pointer, modelled as `none`
(a crash); otherwise the `bytes.Reader` seek arithmetic runs (whence 0, 1, 2
measured from start, current offset, end; a negative target is an error). -/
def Seek (f : HttpFile) (offset : Int) (whence : Nat) :
    Option ((Int × Option GoErr) × HttpFile) :=
  match f.reader with
  | none => none
  | some r =>
    let base : Int := if whence = 0 then 0 else if whence = 1 then r.pos else r.data.length
    let target : Int := base + offset
    if target < 0 then some ((0, some .eof), f)
    else some ((target, none), { f with reader := some ⟨r.data, target.toNat⟩ })

/-- A full drain of the handle's reader from its current offset, the result
of the serving layer's read-until-EOF loop (`readerRead` returns the whole
remainder already when the buffer is large enough, and `io.EOF` after). A
nil reader reads nothing. -/
def readAll (f : HttpFile) : List Nat :=
  match f.reader with
  | none => []
  | some r => r.data.drop r.pos

/-- Two's-complement wraparound of Go's 64-bit `int` (the word size of the
platforms this code targets): addition such as `start + count` wraps modulo
`2^64` into `[-2^63, 2^63)`. -/
def wrapInt64 (x : Int) : Int := (x + 2 ^ 63) % 2 ^ 64 - 2 ^ 63

/-- Resolution of a child base name to its metadata, as the `Readdir` loop
body performs it: look up `path.Join(dirName, childName)` in `Files`; a
missing key yields Go's zero `File` and hence a nil `FileInfo`. -/
def childInfo (fs : StaticalFS) (dn : String) (nm : String) : GoFileInfo :=
  ((alGet fs.Files (pJoin dn nm)).getD zeroFile).info

/-- The body of the `Readdir` listing loop (`for i := start; i < end; i++`),
running from index `i` for `n = end - start` iterations: look up each
child's full path in `Files` (a missing child gives Go's zero `File`, hence
a nil `FileInfo`) and collect the metadata. -/
def readLoop (fs : StaticalFS) (dn : String) (fnames : List String) :
    Nat → Nat → List GoFileInfo
  | _, 0 => []
  | i, n + 1 =>
    ((alGet fs.Files (pJoin dn (fnames.getD i ""))).getD zeroFile).info ::
      readLoop fs dn fnames (i + 1) n

/-- `httpFile.Readdir`: non-directories list nothing; a directory whose
metadata is not the synthesized `dirInfo` fails with the internal error;
otherwise positive `count` pages through `Dirs[name]` from the cursor
(`io.EOF` once the cursor is at or past the end), non-positive `count`
returns the remainder, and the cursor advances by the number of entries
returned. The stop index `end = start + count` is Go `int` arithmetic and
wraps (`wrapInt64`); the cursor advance is by a list length and cannot
overflow. The result is the listed metadata, the error, and the handle with
its mutated cursor. -/
def Readdir (fs : StaticalFS) (f : HttpFile) (count : Int) :
    List GoFileInfo × Option GoErr × HttpFile :=
  if !f.isDirFlag then ([], none, f)
  else
    match f.file.info with
    | .dirInfo dn =>
      let fnames := (alGet fs.Dirs dn).getD []
      let flen := fnames.length
      let start := f.dirIdx
      if flen ≤ start ∧ 0 < count then ([], some .eof, f)
      else
        let stop0 : Int :=
          if count < 0 then (flen : Int) else wrapInt64 ((start : Int) + count)
        let stop : Int := if (flen : Int) < stop0 then (flen : Int) else stop0
        let fis := readLoop fs dn fnames start (stop - (start : Int)).toNat
        (fis, none, { f with dirIdx := f.dirIdx + fis.length })
    | other => ([], some (.failedToReadDir other.goName), f)

/-! ### Auxiliary measures for the `path.Clean` length analysis. -/

/-- The total size of a segment list, counting one separator per segment
(`segMeasure (splitSlash p) = p.length + 1`). -/
def segMeasure (segs : List (List Char)) : Nat :=
  (segs.map (fun s => s.length + 1)).sum

/-- Like `segMeasure`, but the segments `cleanLoop` never pushes (empty,
`"."`, `".."`) count for nothing. -/
def dropMeasure (segs : List (List Char)) : Nat :=
  (segs.map (fun s => if s = [] ∨ s = ['.'] ∨ s = ['.', '.'] then 0 else s.length + 1)).sum

/-! ### Concrete archives used by the closed statements below. -/

/-- The spec's end-to-end example archive: two plain files under `public/`. -/
def exRecs : List ZRecord :=
  [fileRec "public/css/app.css" [98, 111], fileRec "public/hello.txt" [104, 105]]

/-- The file system built from `exRecs`. -/
def exFS : StaticalFS := (buildFS exRecs).toOption.getD emptyFS

/-- The handle from opening the synthesized directory `/public` of `exFS`. -/
def pubHandle : HttpFile := (Open exFS "/public").toOption.getD (newHTTPFile zeroFile)

/-- An archive holding a regular-file record at `a` and another record below
it at `a/b`, so the parent path `/a` of `/a/b` is a non-directory entry. -/
def parentCexRecs : List ZRecord := [fileRec "a" [9], fileRec "a/b" [8]]

/-- The file system built from `parentCexRecs`. -/
def parentCexFS : StaticalFS := (buildFS parentCexRecs).toOption.getD emptyFS

/-- An archive holding records `a//b` and `a/b`, two distinct paths with the
same parent `/a` and the same base name `b`. -/
def dupCexRecs : List ZRecord := [fileRec "a//b" [1], fileRec "a/b" [2]]

/-- The file system built from `dupCexRecs`. -/
def dupCexFS : StaticalFS := (buildFS dupCexRecs).toOption.getD emptyFS

/-- An archive giving the directory `/d` the children `a`, `b`, `c`. -/
def pagRecs : List ZRecord := [fileRec "d/a" [1], fileRec "d/b" [2], fileRec "d/c" [3]]

/-- The file system built from `pagRecs`. -/
def pagFS : StaticalFS := (buildFS pagRecs).toOption.getD emptyFS

/-- The handle from opening the synthesized directory `/d` of `pagFS`. -/
def pagHandle : HttpFile := (Open pagFS "/d").toOption.getD (newHTTPFile zeroFile)

/-- An archive with an explicit directory record at `d` (archive-provided
metadata, no trailing slash) and a file below it. -/
def exDirRecs : List ZRecord := [dirRec "d", fileRec "d/x" [7]]

/-- The file system built from `exDirRecs`. -/
def exDirFS : StaticalFS := (buildFS exDirRecs).toOption.getD emptyFS

/-- The handle from opening `/d` of `exDirFS`: a directory handle whose
metadata comes from the archive record, not from synthesis. -/
def exDirHandle : HttpFile := (Open exDirFS "/d").toOption.getD (newHTTPFile zeroFile)

/-- An archive whose only record lives at a path with a doubled separator. -/
def doubleCexRecs : List ZRecord := [fileRec "a//b" [5]]

/-- The file system built from `doubleCexRecs`. -/
def doubleCexFS : StaticalFS := (buildFS doubleCexRecs).toOption.getD emptyFS

/-- An archive holding `d/index.html`, for checking that opening `/d`
answers the directory itself and substitutes no index document. -/
def idxRecs : List ZRecord := [fileRec "d/index.html" [1]]

/-- The file system built from `idxRecs`. -/
def idxFS : StaticalFS := (buildFS idxRecs).toOption.getD emptyFS

/-! ### Lemmas about the association-list model of Go maps. -/

theorem alGet_alPut {α : Type} (l : List (String × α)) (k q : String) (v : α) :
    alGet (alPut l k v) q = if k = q then some v else alGet l q := by
  induction l with
  | nil => simp [alPut, alGet]
  | cons kv rest ih =>
    obtain ⟨k', v'⟩ := kv
    by_cases hk : k' = k
    · subst hk
      by_cases hq : k' = q <;> simp [alPut, alGet, hq]
    · by_cases hq : k' = q
      · subst hq
        simp only [alPut, if_neg hk, alGet, if_pos rfl]
        rw [if_neg (fun h : k = k' => hk h.symm)]
        simp
      · simp [alPut, alGet, hk, hq, ih]

theorem alGet_isSome_iff {α : Type} (l : List (String × α)) (q : String) :
    (alGet l q).isSome = true ↔ q ∈ alKeys l := by
  induction l with
  | nil => simp [alGet, alKeys]
  | cons kv rest ih =>
    obtain ⟨k', v'⟩ := kv
    by_cases hq : k' = q
    · simp [alGet, alKeys, hq]
    · have : alKeys ((k', v') :: rest) = k' :: alKeys rest := rfl
      rw [alGet, if_neg hq, this, List.mem_cons, ih]
      constructor
      · exact Or.inr
      · rintro (h | h)
        · exact absurd h.symm hq
        · exact h

theorem alHas_iff_mem {α : Type} (l : List (String × α)) (q : String) :
    alHas l q = true ↔ q ∈ alKeys l := by
  rw [alHas, alGet_isSome_iff]

theorem alGet_eq_none_iff {α : Type} (l : List (String × α)) (q : String) :
    alGet l q = none ↔ q ∉ alKeys l := by
  rw [← alGet_isSome_iff]
  cases alGet l q <;> simp

/-! ### Length analysis of `path.Clean` and `path.Dir`. -/

theorem splitSlash_ne_nil (p : List Char) : splitSlash p ≠ [] := by
  cases p with
  | nil => simp [splitSlash]
  | cons c rest =>
    simp only [splitSlash]
    split
    · simp
    · split <;> simp

theorem splitSlash_cons_slash (t : List Char) : splitSlash ('/' :: t) = [] :: splitSlash t := by
  simp [splitSlash]

theorem segMeasure_nil : segMeasure [] = 0 := rfl

theorem segMeasure_cons (s : List Char) (segs : List (List Char)) :
    segMeasure (s :: segs) = s.length + 1 + segMeasure segs := by
  simp only [segMeasure, List.map_cons, List.sum_cons]

theorem segMeasure_reverse (segs : List (List Char)) :
    segMeasure segs.reverse = segMeasure segs := by
  rw [segMeasure, segMeasure, List.map_reverse, List.sum_reverse]

theorem segMeasure_splitSlash (p : List Char) : segMeasure (splitSlash p) = p.length + 1 := by
  induction p with
  | nil => simp [splitSlash, segMeasure]
  | cons c rest ih =>
    simp only [splitSlash]
    by_cases hc : c = '/'
    · rw [if_pos hc, segMeasure_cons]
      simp [ih]
      omega
    · rw [if_neg hc]
      rcases h : splitSlash rest with _ | ⟨s, ss⟩
      · exact absurd h (splitSlash_ne_nil rest)
      · rw [h, segMeasure_cons] at ih
        rw [segMeasure_cons]
        simp at ih ⊢
        omega

theorem dropMeasure_nil : dropMeasure [] = 0 := rfl

theorem dropMeasure_cons (s : List Char) (segs : List (List Char)) :
    dropMeasure (s :: segs) =
      (if s = [] ∨ s = ['.'] ∨ s = ['.', '.'] then 0 else s.length + 1) + dropMeasure segs := by
  simp [dropMeasure]

theorem dropMeasure_le (segs : List (List Char)) : dropMeasure segs ≤ segMeasure segs := by
  induction segs with
  | nil => simp [dropMeasure, segMeasure]
  | cons s rest ih =>
    rw [dropMeasure_cons, segMeasure_cons]
    split <;> omega

theorem dropMeasure_succ_le_of_mem_nil (segs : List (List Char)) (h : [] ∈ segs) :
    dropMeasure segs + 1 ≤ segMeasure segs := by
  induction segs with
  | nil => simp at h
  | cons s rest ih =>
    rw [dropMeasure_cons, segMeasure_cons]
    rcases List.mem_cons.mp h with h1 | h1
    · have := dropMeasure_le rest
      simp [h1.symm]
      omega
    · have := ih h1
      split <;> omega

theorem joinSegs_length (segs : List (List Char)) (h : segs ≠ []) :
    (joinSegs segs).length + 1 = segMeasure segs := by
  induction segs with
  | nil => exact absurd rfl h
  | cons s rest ih =>
    cases rest with
    | nil => simp [joinSegs, segMeasure]
    | cons r rs =>
      have hne : r :: rs ≠ [] := by simp
      rw [segMeasure_cons, ← ih hne]
      simp [joinSegs]
      omega

theorem popDotDot_rooted_spec (acc : List (List Char)) (hacc : ['.', '.'] ∉ acc) :
    segMeasure (popDotDot true acc) ≤ segMeasure acc ∧ ['.', '.'] ∉ popDotDot true acc := by
  cases acc with
  | nil => simp [popDotDot, segMeasure]
  | cons top accT =>
    have htop : top ≠ ['.', '.'] := fun h => hacc (by simp [h])
    rw [popDotDot, if_neg htop]
    refine ⟨?_, fun h => hacc (List.mem_cons_of_mem _ h)⟩
    rw [segMeasure_cons]
    omega

theorem cleanLoop_measure (segs : List (List Char)) :
    ∀ acc : List (List Char), ['.', '.'] ∉ acc →
      segMeasure (cleanLoop true acc segs) ≤ segMeasure acc + dropMeasure segs := by
  induction segs with
  | nil =>
    intro acc _
    simp [cleanLoop, segMeasure_reverse, dropMeasure]
  | cons seg rest ih =>
    intro acc hacc
    simp only [cleanLoop]
    by_cases h1 : seg = [] ∨ seg = ['.']
    · rw [if_pos h1, dropMeasure_cons]
      have := ih acc hacc
      split <;> omega
    · rw [if_neg h1]
      by_cases h2 : seg = ['.', '.']
      · rw [if_pos h2]
        obtain ⟨hle, hnm⟩ := popDotDot_rooted_spec acc hacc
        have := ih (popDotDot true acc) hnm
        rw [dropMeasure_cons]
        have hdrop : seg = [] ∨ seg = ['.'] ∨ seg = ['.', '.'] := Or.inr (Or.inr h2)
        rw [if_pos hdrop]
        omega
      · rw [if_neg h2]
        have hmem : ['.', '.'] ∉ seg :: acc := by
          intro h
          rcases List.mem_cons.mp h with h | h
          · exact h2 h.symm
          · exact hacc h
        have := ih (seg :: acc) hmem
        rw [segMeasure_cons] at this
        rw [dropMeasure_cons]
        have hdrop : ¬(seg = [] ∨ seg = ['.'] ∨ seg = ['.', '.']) := by
          rintro (h | h | h)
          · exact h1 (Or.inl h)
          · exact h1 (Or.inr h)
          · exact h2 h
        rw [if_neg hdrop]
        omega

theorem splitSlash_eq_singleton_nil {r : List Char} (h : splitSlash r = [[]]) : r = [] := by
  cases r with
  | nil => rfl
  | cons c rest =>
    simp only [splitSlash] at h
    by_cases hc : c = '/'
    · rw [if_pos hc] at h
      have : splitSlash rest = [] := by
        injection h
      exact absurd this (splitSlash_ne_nil rest)
    · rw [if_neg hc] at h
      rcases hsp : splitSlash rest with _ | ⟨s, ss⟩
      · rw [hsp] at h
        simp at h
      · rw [hsp] at h
        simp at h

theorem splitSlash_cons_ne (c : Char) (rest : List Char) (hc : c ≠ '/')
    {s : List Char} {ss : List (List Char)} (hsp : splitSlash rest = s :: ss) :
    splitSlash (c :: rest) = (c :: s) :: ss := by
  simp only [splitSlash, if_neg hc, hsp]

theorem splitSlash_getLast (t : List Char) (h0 : t ≠ []) (h : t.getLast? = some '/') :
    (splitSlash t).getLast? = some [] := by
  induction t with
  | nil => exact absurd rfl h0
  | cons c rest ih =>
    cases rest with
    | nil =>
      have hc : c = '/' := by simpa [List.getLast?] using h
      subst hc
      rfl
    | cons r rs =>
      have hlast : (r :: rs).getLast? = some '/' := by
        rwa [List.getLast?_cons_cons] at h
      have ihh := ih (by simp) hlast
      rcases hsp : splitSlash (r :: rs) with _ | ⟨s, ss⟩
      · exact absurd hsp (splitSlash_ne_nil _)
      · rw [hsp] at ihh
        by_cases hc : c = '/'
        · subst hc
          rw [splitSlash_cons_slash, hsp, List.getLast?_cons_cons]
          exact ihh
        · rw [splitSlash_cons_ne c (r :: rs) hc hsp]
          cases ss with
          | nil =>
            have hs : s = [] := by simpa [List.getLast?] using ihh
            subst hs
            exact absurd (splitSlash_eq_singleton_nil hsp) (by simp)
          | cons s2 ss2 =>
            rw [List.getLast?_cons_cons]
            rwa [List.getLast?_cons_cons] at ihh

theorem cleanLoop_nil_seg (acc : List (List Char)) (segs : List (List Char)) :
    cleanLoop true acc ([] :: segs) = cleanLoop true acc segs := by
  rw [cleanLoop, if_pos (Or.inl rfl)]

theorem cleanList_cons_slash (t : List Char) :
    cleanList ('/' :: t) =
      if cleanLoop true [] (splitSlash t) = [] then ['/']
      else '/' :: joinSegs (cleanLoop true [] (splitSlash t)) := by
  rw [cleanList, if_neg (by simp)]
  simp only [List.head?_cons, splitSlash_cons_slash]
  simp [cleanLoop_nil_seg]

theorem cleanList_length_le (p : List Char) (hp : p.head? = some '/') :
    (cleanList p).length ≤ p.length := by
  rcases p with _ | ⟨c, t⟩
  · simp at hp
  · have hc : c = '/' := by simpa using hp
    subst hc
    rw [cleanList_cons_slash]
    have hb : segMeasure (cleanLoop true [] (splitSlash t)) ≤ dropMeasure (splitSlash t) := by
      simpa [segMeasure] using cleanLoop_measure (splitSlash t) [] (by simp)
    have hb2 := dropMeasure_le (splitSlash t)
    have hb3 := segMeasure_splitSlash t
    split
    · simp
    · rename_i hne
      have hj := joinSegs_length _ hne
      simp only [List.length_cons]
      omega

theorem cleanList_length_lt (p : List Char) (hp : p.head? = some '/')
    (hlast : p.getLast? = some '/') (hne : p ≠ ['/']) :
    (cleanList p).length < p.length := by
  rcases p with _ | ⟨c, t⟩
  · simp at hp
  · have hc : c = '/' := by simpa using hp
    subst hc
    have ht : t ≠ [] := by
      intro h
      exact hne (by rw [h])
    have hlt : t.getLast? = some '/' := by
      rcases t with _ | ⟨r, rs⟩
      · exact absurd rfl ht
      · rwa [List.getLast?_cons_cons] at hlast
    have hmem : [] ∈ splitSlash t :=
      List.mem_of_mem_getLast? (splitSlash_getLast t ht hlt)
    have hb : segMeasure (cleanLoop true [] (splitSlash t)) ≤ dropMeasure (splitSlash t) := by
      simpa [segMeasure] using cleanLoop_measure (splitSlash t) [] (by simp)
    have hb2 := dropMeasure_succ_le_of_mem_nil (splitSlash t) hmem
    have hb3 := segMeasure_splitSlash t
    have htl : 1 ≤ t.length := List.length_pos.mpr ht
    rw [cleanList_cons_slash]
    split
    · simp
      omega
    · rename_i hne2
      have hj := joinSegs_length _ hne2
      simp only [List.length_cons]
      omega

theorem cleanList_head (p : List Char) (hp : p.head? = some '/') :
    (cleanList p).head? = some '/' := by
  rcases p with _ | ⟨c, t⟩
  · simp at hp
  · have hc : c = '/' := by simpa using hp
    subst hc
    rw [cleanList_cons_slash]
    split <;> simp

theorem dropWhile_ne_slash_head (l : List Char) (h : '/' ∈ l) :
    (l.dropWhile (fun c => c ≠ '/')).head? = some '/' := by
  induction l with
  | nil => simp at h
  | cons c rest ih =>
    by_cases hc : c = '/'
    · subst hc
      rw [List.dropWhile_cons]
      simp
    · rw [List.dropWhile_cons, if_pos (by simp [hc])]
      exact ih (by rcases List.mem_cons.mp h with h | h; exact absurd h.symm hc; exact h)

theorem dropWhile_getLast? (l : List Char) (q : Char → Bool) :
    l.dropWhile q = [] ∨ (l.dropWhile q).getLast? = l.getLast? := by
  induction l with
  | nil => exact Or.inl rfl
  | cons c rest ih =>
    rw [List.dropWhile_cons]
    by_cases hq : q c = true
    · rw [if_pos hq]
      cases rest with
      | nil => exact Or.inl rfl
      | cons r rs =>
        rcases ih with h | h
        · exact Or.inl h
        · exact Or.inr (by rw [h, List.getLast?_cons_cons])
    · rw [if_neg hq]
      exact Or.inr rfl

theorem mem_slash_of_head (p : List Char) (hp : p.head? = some '/') : '/' ∈ p := by
  rcases p with _ | ⟨c, t⟩
  · simp at hp
  · have hc : c = '/' := by simpa using hp
    subst hc
    exact List.mem_cons_self _ _

theorem dirPart_getLast (p : List Char) (hp : p.head? = some '/') :
    (dirPart p).getLast? = some '/' := by
  rw [dirPart, List.getLast?_reverse]
  exact dropWhile_ne_slash_head _ (List.mem_reverse.mpr (mem_slash_of_head p hp))

theorem dirPart_head (p : List Char) (hp : p.head? = some '/') :
    (dirPart p).head? = some '/' := by
  rw [dirPart, List.head?_reverse]
  have hmem : '/' ∈ p.reverse := List.mem_reverse.mpr (mem_slash_of_head p hp)
  have hne : p.reverse.dropWhile (fun c => c ≠ '/') ≠ [] := by
    intro h
    have := dropWhile_ne_slash_head _ hmem
    rw [h] at this
    simp at this
  rcases dropWhile_getLast? p.reverse (fun c => decide (c ≠ '/')) with h | h
  · exact absurd h hne
  · rw [h, List.getLast?_reverse]
    exact hp

theorem dirPart_ne_nil (p : List Char) (hp : p.head? = some '/') : dirPart p ≠ [] := by
  intro h
  have := dirPart_head p hp
  rw [h] at this
  simp at this

theorem dirPart_length_le (p : List Char) : (dirPart p).length ≤ p.length := by
  rw [dirPart, List.length_reverse]
  calc (p.reverse.dropWhile (fun c => c ≠ '/')).length
      ≤ p.reverse.length := (List.dropWhile_sublist _).length_le
    _ = p.length := List.length_reverse p

theorem dirPart_length_lt (p : List Char) (hp : p ≠ [])
    (hlast : p.getLast? ≠ some '/') : (dirPart p).length < p.length := by
  rcases hrev : p.reverse with _ | ⟨c, r⟩
  · exact absurd (by simpa using congrArg List.reverse hrev) hp
  · have hc : c ≠ '/' := by
      intro h
      apply hlast
      rw [← List.head?_reverse, hrev, h]
      rfl
    have : dirPart p = ((c :: r).dropWhile (fun x => x ≠ '/')).reverse := by
      rw [dirPart, hrev]
    rw [this, List.dropWhile_cons, if_pos (by simp [hc])]
    have h1 : (r.dropWhile (fun x => x ≠ '/')).length ≤ r.length :=
      (List.dropWhile_sublist _).length_le
    have h2 : p.length = r.length + 1 := by
      have := congrArg List.length hrev
      simpa using this
    rw [List.length_reverse]
    omega

theorem dirPart_eq_of_last_slash (p : List Char) (hlast : p.getLast? = some '/') :
    dirPart p = p := by
  rcases hrev : p.reverse with _ | ⟨c, r⟩
  · have : p = [] := by simpa using congrArg List.reverse hrev
    rw [this] at hlast
    simp at hlast
  · have hc : c = '/' := by
      have := List.head?_reverse p
      rw [hrev] at this
      simp only [List.head?_cons] at this
      exact Option.some.inj (this.trans hlast)
    rw [dirPart, hrev, List.dropWhile_cons, if_neg (by simp [hc])]
    rw [← hrev, List.reverse_reverse]

/-! ### The key facts about `path.Dir` driving directory synthesis. -/

theorem rooted_length_pos (s : String) (h : rooted s) : 1 ≤ s.length := by
  rcases hd : s.data with _ | ⟨c, t⟩
  · rw [rooted, hd] at h
    simp at h
  · show 1 ≤ s.data.length
    rw [hd]
    simp

theorem pDir_rooted (s : String) (h : rooted s) : rooted (pDir s) :=
  cleanList_head _ (dirPart_head _ h)

theorem pDir_length_lt (s : String) (h : rooted s) (hne : s ≠ "/") :
    (pDir s).length < s.length := by
  obtain ⟨d⟩ := s
  have hd : d.head? = some '/' := h
  have hne' : d ≠ ['/'] := by
    intro hcontra
    exact hne (by rw [hcontra])
  show (cleanList (dirPart d)).length < d.length
  by_cases hl : d.getLast? = some '/'
  · rw [dirPart_eq_of_last_slash d hl]
    exact cleanList_length_lt d hd hl hne'
  · calc (cleanList (dirPart d)).length
        ≤ (dirPart d).length := cleanList_length_le _ (dirPart_head d hd)
      _ < d.length := dirPart_length_lt d (by rintro rfl; simp at hd) hl

theorem pDir_root : pDir "/" = "/" := by decide

theorem pDir_eq_self_iff (s : String) (h : rooted s) : pDir s = s ↔ s = "/" := by
  constructor
  · intro he
    by_contra hne
    have := pDir_length_lt s h hne
    rw [he] at this
    exact lt_irrefl _ this
  · rintro rfl
    exact pDir_root

/-! ### Correctness of the directory-synthesis walk. -/

theorem synthWalk_spec : ∀ (fuel : Nat) (files : List (String × File)) (fn : String),
    rooted fn → fn.length ≤ fuel →
    (∀ q, alGet (synthWalk files fn fuel) q = alGet files q ∨
       (alGet files q = none ∧ alGet (synthWalk files fn fuel) q = some ⟨.dirInfo q, []⟩ ∧
        rooted q)) ∧
    (fn ≠ "/" → alHas (synthWalk files fn fuel) (pDir fn) = true) ∧
    (∀ q, alHas (synthWalk files fn fuel) q = true → alHas files q = false →
      (q = "/" ∨ alHas (synthWalk files fn fuel) (pDir q) = true)) := by
  intro fuel
  induction fuel with
  | zero =>
    intro files fn hr hlen
    have := rooted_length_pos fn hr
    omega
  | succ fuel ih =>
    intro files fn hr hlen
    by_cases h1 : pDir fn = fn
    · have hres : synthWalk files fn (fuel + 1) = files := by
        rw [synthWalk, if_pos h1]
      rw [hres]
      refine ⟨fun q => Or.inl rfl, ?_, ?_⟩
      · intro hne
        exact absurd ((pDir_eq_self_iff fn hr).mp h1) hne
      · intro q hq hnq
        rw [hq] at hnq
        cases hnq
    · have hfn : fn ≠ "/" := by
        rintro rfl
        exact h1 pDir_root
      by_cases h2 : alHas files (pDir fn) = true
      · have hres : synthWalk files fn (fuel + 1) = files := by
          rw [synthWalk, if_neg h1, if_pos h2]
        rw [hres]
        refine ⟨fun q => Or.inl rfl, fun _ => h2, ?_⟩
        intro q hq hnq
        rw [hq] at hnq
        cases hnq
      · have hres : synthWalk files fn (fuel + 1) =
            synthWalk (alPut files (pDir fn) ⟨.dirInfo (pDir fn), []⟩) (pDir fn) fuel := by
          rw [synthWalk, if_neg h1, if_neg h2]
      -- impossible-to-typo guard: h2 : ¬ alHas files (pDir fn) = true
        rw [hres]
        have hdnone : alGet files (pDir fn) = none := by
          rcases hx : alGet files (pDir fn) with _ | v
          · rfl
          · exact absurd (by rw [alHas, hx]; rfl) h2
        have hlt := pDir_length_lt fn hr hfn
        obtain ⟨W1, W2, W3⟩ :=
          ih (alPut files (pDir fn) ⟨.dirInfo (pDir fn), []⟩) (pDir fn)
            (pDir_rooted fn hr) (by omega)
        have hget1 : alGet (alPut files (pDir fn) ⟨.dirInfo (pDir fn), []⟩) (pDir fn) =
            some ⟨.dirInfo (pDir fn), []⟩ := by
          rw [alGet_alPut, if_pos rfl]
        refine ⟨?_, ?_, ?_⟩
        · intro q
          rcases W1 q with hW | ⟨hW1, hW2, hW3⟩
          · by_cases hq : pDir fn = q
            · subst hq
              exact Or.inr ⟨hdnone, by rw [hW, hget1], pDir_rooted fn hr⟩
            · exact Or.inl (by rw [hW, alGet_alPut, if_neg hq])
          · refine Or.inr ⟨?_, hW2, hW3⟩
            by_cases hq : pDir fn = q
            · subst hq
              rw [hget1] at hW1
              cases hW1
            · rwa [alGet_alPut, if_neg hq] at hW1
        · intro _
          rcases W1 (pDir fn) with hW | ⟨hW1, hW2, _⟩
          · rw [alHas, hW, hget1]
            rfl
          · rw [alHas, hW2]
            rfl
        · intro q hq hnq
          by_cases hq2 : q = pDir fn
          · rw [hq2]
            by_cases hroot : pDir fn = "/"
            · exact Or.inl hroot
            · exact Or.inr (W2 hroot)
          · have hf1 : alHas (alPut files (pDir fn) ⟨.dirInfo (pDir fn), []⟩) q = false := by
              rw [alHas, alGet_alPut, if_neg (fun h => hq2 h.symm), ← alHas]
              exact hnq
            exact W3 q hq hf1

theorem synthFold_spec : ∀ (ks : List String) (files : List (String × File)),
    (∀ k ∈ ks, rooted k) →
    (∀ q, alGet (synthFold files ks) q = alGet files q ∨
       (alGet files q = none ∧ alGet (synthFold files ks) q = some ⟨.dirInfo q, []⟩ ∧
        rooted q)) ∧
    (∀ k ∈ ks, k ≠ "/" → alHas (synthFold files ks) (pDir k) = true) ∧
    (∀ q, alHas (synthFold files ks) q = true → alHas files q = false →
      (q = "/" ∨ alHas (synthFold files ks) (pDir q) = true)) := by
  intro ks
  induction ks with
  | nil =>
    intro files _
    refine ⟨fun q => Or.inl rfl, by simp, ?_⟩
    intro q hq hnq
    have hq' : alHas files q = true := hq
    rw [hq'] at hnq
    cases hnq
  | cons fn rest ih =>
    intro files hks
    have hr : rooted fn := hks fn (List.mem_cons_self _ _)
    have hrest : ∀ k ∈ rest, rooted k := fun k hk => hks k (List.mem_cons_of_mem _ hk)
    have hfold : synthFold files (fn :: rest) = synthFold (synthWalk files fn fn.length) rest := rfl
    obtain ⟨W1, W2, W3⟩ := synthWalk_spec fn.length files fn hr le_rfl
    obtain ⟨F1, F2, F3⟩ := ih (synthWalk files fn fn.length) hrest
    have mono1 : ∀ q, alHas (synthWalk files fn fn.length) q = true →
        alHas (synthFold (synthWalk files fn fn.length) rest) q = true := by
      intro q hq
      rcases F1 q with hF | ⟨_, hF2, _⟩
      · rw [alHas, hF, ← alHas]
        exact hq
      · rw [alHas, hF2]
        rfl
    rw [hfold]
    refine ⟨?_, ?_, ?_⟩
    · intro q
      rcases F1 q with hF | ⟨hF1, hF2, hF3⟩
      · rcases W1 q with hW | ⟨hW1, hW2, hW3⟩
        · exact Or.inl (by rw [hF, hW])
        · exact Or.inr ⟨hW1, by rw [hF, hW2], hW3⟩
      · refine Or.inr ⟨?_, hF2, hF3⟩
        rcases W1 q with hW | ⟨hW1, hW2, _⟩
        · rw [← hW]
          exact hF1
        · rw [hW2] at hF1
          cases hF1
    · intro k hk hkne
      rcases List.mem_cons.mp hk with hke | hke
      · subst hke
        exact mono1 _ (W2 hkne)
      · exact F2 k hke hkne
    · intro q hq hnq
      by_cases h1 : alHas (synthWalk files fn fn.length) q = true
      · rcases W3 q h1 hnq with hroot | hpar
        · exact Or.inl hroot
        · exact Or.inr (mono1 _ hpar)
      · have h1' : alHas (synthWalk files fn fn.length) q = false := by
          cases hb : alHas (synthWalk files fn fn.length) q
          · rfl
          · exact absurd hb h1
        exact F3 q hq h1'

/-! ### The unzip loop of `New`. -/

theorem buildFilesLoop_some : ∀ (rs : List ZRecord) (acc m : List (String × File)),
    buildFilesLoop acc rs = .ok m → ∀ q f, alGet m q = some f →
      alGet acc q = some f ∨
      ∃ r ∈ rs, q = "/" ++ r.name ∧ ∃ d, r.unzipped = .ok d ∧ f = ⟨.archive r.name r.dir, d⟩ := by
  intro rs
  induction rs with
  | nil =>
    intro acc m h q f hget
    have hm : acc = m := by
      rw [buildFilesLoop] at h
      injection h
    subst hm
    exact Or.inl hget
  | cons r rest ih =>
    intro acc m h q f hget
    rw [buildFilesLoop] at h
    rcases hu : r.unzipped with e | d
    · rw [hu] at h
      cases h
    · rw [hu] at h
      rcases ih _ _ h q f hget with hacc | ⟨r', hr', hk, d', hu', hf⟩
      · by_cases hk : ("/" ++ r.name) = q
        · rw [alGet_alPut, if_pos hk] at hacc
          refine Or.inr ⟨r, List.mem_cons_self _ _, hk.symm, d, hu, ?_⟩
          injection hacc with h'
          exact h'.symm
        · rw [alGet_alPut, if_neg hk] at hacc
          exact Or.inl hacc
      · exact Or.inr ⟨r', List.mem_cons_of_mem _ hr', hk, d', hu', hf⟩

theorem rooted_slash_append (x : String) : rooted ("/" ++ x) := by
  show (("/" ++ x).data).head? = some '/'
  rw [String.data_append]
  rfl

theorem buildFilesLoop_rooted (rs : List ZRecord) (m : List (String × File))
    (h : buildFilesLoop [] rs = .ok m) : ∀ q, alHas m q = true → rooted q := by
  intro q hq
  obtain ⟨f, hf⟩ := Option.isSome_iff_exists.mp hq
  rcases buildFilesLoop_some rs [] m h q f hf with hacc | ⟨r, _, hk, _⟩
  · cases hacc
  · rw [hk]
    exact rooted_slash_append r.name

/-! ### Claim C1. -/

/-- C1 (amended): for every archive accepted by the build step, every non-root
path `p` in the entries map has its parent path `path.Dir p` present in the
entries map — unconditionally; and the parent entry is moreover marked as a
directory provided no regular-file record of the archive sits at a path that
is the parent of another entry (the counterexample shows the
directory-marking half fails without that proviso). -/
theorem c1_parent_present_and_dir (rs : List ZRecord) (fs : StaticalFS)
    (hbuild : buildFS rs = .ok fs) :
    (∀ p ∈ alKeys fs.Files, p ≠ "/" → ∃ f, alGet fs.Files (pDir p) = some f) ∧
    ((∀ r ∈ rs, r.dir = false →
        ∀ q ∈ alKeys fs.Files, q ≠ "/" → pDir q ≠ "/" ++ r.name) →
      ∀ p ∈ alKeys fs.Files, p ≠ "/" →
        ∃ f, alGet fs.Files (pDir p) = some f ∧ f.info.goIsDir = true) := by
  unfold buildFS at hbuild
  rcases hbl : buildFilesLoop [] rs with e | m
  · rw [hbl] at hbuild
    cases hbuild
  · rw [hbl] at hbuild
    have hfs : fs = ⟨synthesize m, buildDirs (synthesize m)⟩ := by
      injection hbuild with h
      exact h.symm
    subst hfs
    have hFiles : (StaticalFS.mk (synthesize m) (buildDirs (synthesize m))).Files =
        synthFold m (alKeys m) := rfl
    rw [hFiles]
    have hroot : ∀ k ∈ alKeys m, rooted k := fun k hk =>
      buildFilesLoop_rooted rs m hbl k ((alHas_iff_mem m k).mpr hk)
    obtain ⟨F1, F2, F3⟩ := synthFold_spec (alKeys m) m hroot
    have hpresent : ∀ p ∈ alKeys (synthFold m (alKeys m)), p ≠ "/" →
        ∃ f, alGet (synthFold m (alKeys m)) (pDir p) = some f := by
      intro p hp hpne
      have hparent : alHas (synthFold m (alKeys m)) (pDir p) = true := by
        by_cases hpm : p ∈ alKeys m
        · exact F2 p hpm hpne
        · have hhas : alHas (synthFold m (alKeys m)) p = true := (alHas_iff_mem _ p).mpr hp
          have hnm : alHas m p = false := by
            cases hb : alHas m p
            · rfl
            · exact absurd ((alHas_iff_mem m p).mp hb) hpm
          rcases F3 p hhas hnm with h | h
          · exact absurd h hpne
          · exact h
      exact Option.isSome_iff_exists.mp hparent
    refine ⟨hpresent, ?_⟩
    intro hnofile p hp hpne
    obtain ⟨f, hf⟩ := hpresent p hp hpne
    refine ⟨f, hf, ?_⟩
    rcases F1 (pDir p) with hF | ⟨_, hF2, _⟩
    · have hm' : alGet m (pDir p) = some f := by
        rw [← hF]
        exact hf
      rcases buildFilesLoop_some rs [] m hbl (pDir p) f hm' with h | ⟨r, hr, hkey, d, _, hfval⟩
      · cases h
      · by_cases hdir : r.dir = true
        · rw [hfval]
          exact hdir
        · have hdf : r.dir = false := by
            cases hb : r.dir
            · rfl
            · exact absurd hb hdir
          exact absurd hkey (hnofile r hr hdf p hp hpne)
    · rw [hF2] at hf
      injection hf with h
      rw [← h]
      rfl

/-- Witness for C1: on the spec's example archive, the parent of
`/public/hello.txt` is the synthesized directory `/public`; and on the
proviso-violating archive `[a, a/b]`, the parent of `/a/b` is still present
(the unconditional half). -/
theorem c1_parent_present_and_dir_witness :
    (buildFS exRecs = .ok exFS ∧
     (∀ r ∈ exRecs, r.dir = false →
       ∀ q ∈ alKeys exFS.Files, q ≠ "/" → pDir q ≠ "/" ++ r.name) ∧
     "/public/hello.txt" ∈ alKeys exFS.Files ∧ "/public/hello.txt" ≠ "/") ∧
    (∃ f, alGet exFS.Files (pDir "/public/hello.txt") = some f ∧ f.info.goIsDir = true) ∧
    (buildFS parentCexRecs = .ok parentCexFS ∧
     "/a/b" ∈ alKeys parentCexFS.Files ∧ "/a/b" ≠ "/") ∧
    (∃ f, alGet parentCexFS.Files (pDir "/a/b") = some f) :=
  ⟨⟨rfl, by decide, by decide, by decide⟩,
   (c1_parent_present_and_dir exRecs exFS rfl).2 (by decide)
     "/public/hello.txt" (by decide) (by decide),
   ⟨rfl, by decide, by decide⟩,
   (c1_parent_present_and_dir parentCexRecs parentCexFS rfl).1
     "/a/b" (by decide) (by decide)⟩

/-- Counterexample to C1 as stated: the archive `[a, a/b]` (both regular
files) is accepted by the build step, the non-root path `/a/b` is in the
entries map, its parent `/a` is in the entries map, but the parent entry is
the regular-file record `a`, not a directory. -/
theorem c1_counterexample :
    buildFS parentCexRecs = .ok parentCexFS ∧
    "/a/b" ∈ alKeys parentCexFS.Files ∧ "/a/b" ≠ "/" ∧
    pDir "/a/b" = "/a" ∧
    alGet parentCexFS.Files "/a" = some ⟨.archive "a" false, [9]⟩ ∧
    (GoFileInfo.archive "a" false).goIsDir = false :=
  ⟨rfl, by decide, by decide, by decide, by decide, rfl⟩

/-! ### Characterization of the `Dirs` index. -/

theorem alGet_map_snd {α β : Type} (l : List (String × α)) (g : α → β) (q : String) :
    alGet (l.map (fun kv => (kv.1, g kv.2))) q = (alGet l q).map g := by
  induction l with
  | nil => rfl
  | cons kv rest ih =>
    obtain ⟨k, v⟩ := kv
    by_cases hk : k = q <;> simp [alGet, hk, ih]

theorem dirsStep_getD (acc : List (String × List String)) (fn d : String) :
    (alGet (dirsStep acc fn) d).getD [] =
      (alGet acc d).getD [] ++ (if fn ≠ pDir fn ∧ pDir fn = d then [pBase fn] else []) := by
  unfold dirsStep
  by_cases h1 : fn ≠ pDir fn
  · rw [if_pos h1]
    by_cases h2 : pDir fn = d
    · subst h2
      rw [alGet_alPut, if_pos rfl, if_pos ⟨h1, rfl⟩]
      rfl
    · rw [alGet_alPut, if_neg h2, if_neg (fun hc => h2 hc.2), List.append_nil]
  · rw [if_neg h1, if_neg (fun hc => h1 hc.1), List.append_nil]

theorem dirsFold_getD (ks : List String) :
    ∀ (acc : List (String × List String)) (d : String),
      (alGet (ks.foldl dirsStep acc) d).getD [] =
        (alGet acc d).getD [] ++
          (ks.filter (fun fn => decide (fn ≠ pDir fn ∧ pDir fn = d))).map pBase := by
  induction ks with
  | nil => intro acc d; simp
  | cons fn rest ih =>
    intro acc d
    rw [List.foldl_cons, ih, dirsStep_getD, List.filter_cons]
    by_cases hc : fn ≠ pDir fn ∧ pDir fn = d
    · rw [if_pos hc, decide_eq_true hc]
      simp [List.append_assoc]
    · rw [if_neg hc, decide_eq_false hc]
      simp

theorem buildDirs_getD (files : List (String × File)) (d : String) :
    (alGet (buildDirs files) d).getD [] =
      goSortStrings
        (((alKeys files).filter (fun fn => decide (fn ≠ pDir fn ∧ pDir fn = d))).map pBase) := by
  unfold buildDirs
  rw [alGet_map_snd]
  have hfold := dirsFold_getD (alKeys files) [] d
  rcases h : alGet ((alKeys files).foldl dirsStep []) d with _ | v
  · rw [h] at hfold
    simp only [alGet, Option.getD_none, List.nil_append] at hfold
    rw [← hfold]
    rfl
  · rw [h] at hfold
    simp only [alGet, Option.getD_some, Option.getD_none, List.nil_append] at hfold
    rw [← hfold]
    rfl

theorem buildFS_files_dirs (rs : List ZRecord) (fs : StaticalFS)
    (hbuild : buildFS rs = .ok fs) : fs.Dirs = buildDirs fs.Files := by
  unfold buildFS at hbuild
  rcases hbl : buildFilesLoop [] rs with e | m
  · rw [hbl] at hbuild
    cases hbuild
  · rw [hbl] at hbuild
    have hfs : fs = ⟨synthesize m, buildDirs (synthesize m)⟩ := by
      injection hbuild with h
      exact h.symm
    rw [hfs]

/-! ### The byte-wise string order used by `sort.Strings`. -/

theorem charToNat_inj {a b : Char} (h : a.toNat = b.toNat) : a = b :=
  Char.ext (UInt32.ext h)

theorem lexLe_total : ∀ x y : List Char, lexLe x y = true ∨ lexLe y x = true := by
  intro x
  induction x with
  | nil => intro y; exact Or.inl rfl
  | cons a as ih =>
    intro y
    cases y with
    | nil => exact Or.inr rfl
    | cons b bs =>
      by_cases h1 : a.toNat < b.toNat
      · exact Or.inl (by simp [lexLe, h1])
      · by_cases h2 : b.toNat < a.toNat
        · exact Or.inr (by simp [lexLe, h2])
        · rcases ih bs with h | h
          · exact Or.inl (by simp [lexLe, h1, h2, h])
          · exact Or.inr (by simp [lexLe, h1, h2, h])

theorem lexLe_cons_iff (a b : Char) (as bs : List Char) :
    lexLe (a :: as) (b :: bs) = true ↔
      (a.toNat < b.toNat ∨ (a.toNat = b.toNat ∧ lexLe as bs = true)) := by
  simp only [lexLe]
  by_cases h1 : a.toNat < b.toNat
  · simp [h1]
  · by_cases h2 : b.toNat < a.toNat
    · simp [h1, h2]
      omega
    · have heq : a.toNat = b.toNat := by omega
      simp [h1, h2, heq]

theorem lexLe_trans : ∀ x y z : List Char,
    lexLe x y = true → lexLe y z = true → lexLe x z = true := by
  intro x
  induction x with
  | nil => intro y z _ _; rfl
  | cons a as ih =>
    intro y z hxy hyz
    cases y with
    | nil => simp [lexLe] at hxy
    | cons b bs =>
      cases z with
      | nil => simp [lexLe] at hyz
      | cons c cs =>
        rw [lexLe_cons_iff] at hxy hyz ⊢
        rcases hxy with h | ⟨he1, hr1⟩
        · rcases hyz with h' | ⟨he2, _⟩
          · exact Or.inl (by omega)
          · exact Or.inl (by omega)
        · rcases hyz with h' | ⟨he2, hr2⟩
          · exact Or.inl (by omega)
          · exact Or.inr ⟨by omega, ih bs cs hr1 hr2⟩

theorem lexLt_of_le_of_ne : ∀ x y : List Char,
    lexLe x y = true → x ≠ y → lexLt x y = true := by
  intro x
  induction x with
  | nil =>
    intro y _ hne
    cases y with
    | nil => exact absurd rfl hne
    | cons b bs => rfl
  | cons a as ih =>
    intro y hle hne
    cases y with
    | nil => simp [lexLe] at hle
    | cons b bs =>
      simp only [lexLe] at hle
      simp only [lexLt]
      by_cases h1 : a.toNat < b.toNat
      · simp [h1]
      · by_cases h2 : b.toNat < a.toNat
        · simp [h1, h2] at hle
        · have hab : a = b := charToNat_inj (by omega)
          subst hab
          rw [if_neg h1, if_neg h2] at hle ⊢
          refine ih bs hle ?_
          intro hcontra
          exact hne (by rw [hcontra])

theorem goStrLe_total (a b : String) : goStrLe a b = true ∨ goStrLe b a = true :=
  lexLe_total a.data b.data

theorem goStrLe_trans (a b c : String) (h1 : goStrLe a b = true) (h2 : goStrLe b c = true) :
    goStrLe a c = true :=
  lexLe_trans a.data b.data c.data h1 h2

theorem goStrLt_of_le_of_ne (a b : String) (hle : goStrLe a b = true) (hne : a ≠ b) :
    goStrLt a b = true := by
  refine lexLt_of_le_of_ne a.data b.data hle ?_
  intro hd
  apply hne
  cases a
  cases b
  exact congrArg String.mk (by simpa using hd)

theorem goSortStrings_sorted (l : List String) :
    (goSortStrings l).Pairwise (fun a b => goStrLe a b = true) :=
  @List.sorted_insertionSort String (fun a b => goStrLe a b = true) _
    ⟨fun a b => goStrLe_total a b⟩ ⟨fun a b c => goStrLe_trans a b c⟩ l

theorem goSortStrings_perm (l : List String) : (goSortStrings l).Perm l :=
  List.perm_insertionSort _ l

/-! ### Claim C3. -/

/-- C3 (amended): for every archive accepted by the build step and every
directory `d` of the constructed tree, `children[d]` is sorted and contains
exactly (as a multiset, and element-wise) the base names of the non-root
entry paths whose parent is `d` — unconditionally; it is moreover strictly
sorted (no duplicates) provided no two distinct paths of the entries map
share both their parent path and their base name (the counterexample shows
strictness fails without that proviso). -/
theorem c3_children_sorted_exact (rs : List ZRecord) (fs : StaticalFS)
    (hbuild : buildFS rs = .ok fs)
    (d : String) (_hdir : ∃ f, alGet fs.Files d = some f ∧ f.info.goIsDir = true) :
    ((alGet fs.Dirs d).getD []).Pairwise (fun a b => goStrLe a b = true) ∧
    ((alGet fs.Dirs d).getD []).Perm
      (((alKeys fs.Files).filter (fun fn => decide (fn ≠ pDir fn ∧ pDir fn = d))).map pBase) ∧
    (∀ nm, nm ∈ (alGet fs.Dirs d).getD [] ↔
      ∃ p ∈ alKeys fs.Files, p ≠ pDir p ∧ pDir p = d ∧ pBase p = nm) ∧
    ((alKeys fs.Files).Pairwise (fun a b => ¬(pDir a = pDir b ∧ pBase a = pBase b)) →
      ((alGet fs.Dirs d).getD []).Pairwise (fun a b => goStrLt a b = true)) := by
  rw [buildFS_files_dirs rs fs hbuild, buildDirs_getD]
  have hperm := goSortStrings_perm
    (((alKeys fs.Files).filter (fun fn => decide (fn ≠ pDir fn ∧ pDir fn = d))).map pBase)
  have hsorted := goSortStrings_sorted
    (((alKeys fs.Files).filter (fun fn => decide (fn ≠ pDir fn ∧ pDir fn = d))).map pBase)
  refine ⟨hsorted, hperm, ?_, ?_⟩
  · intro nm
    rw [hperm.mem_iff, List.mem_map]
    constructor
    · rintro ⟨p, hpf, hpb⟩
      have hp := List.mem_filter.mp hpf
      have hc := of_decide_eq_true hp.2
      exact ⟨p, hp.1, hc.1, hc.2, hpb⟩
    · rintro ⟨p, hp, h1, h2, h3⟩
      exact ⟨p, List.mem_filter.mpr ⟨hp, decide_eq_true ⟨h1, h2⟩⟩, h3⟩
  · intro hdup
    have hfil : ((alKeys fs.Files).filter
        (fun fn => decide (fn ≠ pDir fn ∧ pDir fn = d))).Pairwise
        (fun a b => ¬(pDir a = pDir b ∧ pBase a = pBase b)) :=
      List.Pairwise.sublist (List.filter_sublist _) hdup
    have hbase : ((alKeys fs.Files).filter
        (fun fn => decide (fn ≠ pDir fn ∧ pDir fn = d))).Pairwise
        (fun a b => pBase a ≠ pBase b) := by
      refine hfil.imp_of_mem ?_
      intro a b ha hb hR heq
      have hda := of_decide_eq_true (List.mem_filter.mp ha).2
      have hdb := of_decide_eq_true (List.mem_filter.mp hb).2
      exact hR ⟨by rw [hda.2, hdb.2], heq⟩
    have hnodupL : (((alKeys fs.Files).filter
        (fun fn => decide (fn ≠ pDir fn ∧ pDir fn = d))).map pBase).Nodup :=
      List.pairwise_map.mpr hbase
    have hnodup := hperm.nodup_iff.mpr hnodupL
    exact (hsorted.and hnodup).imp (fun h => goStrLt_of_le_of_ne _ _ h.1 h.2)

/-- Witness for C3: `/public` of the spec's example archive is a directory;
its child list is sorted unconditionally, and — since no two entry paths of
that tree share parent and base — strictly sorted. -/
theorem c3_children_sorted_exact_witness :
    (buildFS exRecs = .ok exFS ∧
     (∃ f, alGet exFS.Files "/public" = some f ∧ f.info.goIsDir = true) ∧
     (alKeys exFS.Files).Pairwise (fun a b => ¬(pDir a = pDir b ∧ pBase a = pBase b))) ∧
    ((alGet exFS.Dirs "/public").getD []).Pairwise (fun a b => goStrLe a b = true) ∧
    ((alGet exFS.Dirs "/public").getD []).Pairwise (fun a b => goStrLt a b = true) :=
  ⟨⟨rfl, by decide, by decide⟩,
   (c3_children_sorted_exact exRecs exFS rfl "/public" (by decide)).1,
   (c3_children_sorted_exact exRecs exFS rfl "/public" (by decide)).2.2.2 (by decide)⟩

/-- Counterexample to C3 as stated: the archive `[a//b, a/b]` is accepted by
the build step, `/a` is a directory in the tree, but `children[/a]` is
`["b", "b"]` — not strictly sorted, with a duplicated base name. -/
theorem c3_counterexample :
    buildFS dupCexRecs = .ok dupCexFS ∧
    (∃ f, alGet dupCexFS.Files "/a" = some f ∧ f.info.goIsDir = true) ∧
    alGet dupCexFS.Dirs "/a" = some ["b", "b"] ∧
    ¬ (["b", "b"] : List String).Pairwise (fun a b => goStrLt a b = true) :=
  ⟨rfl, by decide, by decide, by decide⟩

/-! ### The `Readdir` paging loop. -/

theorem readLoop_eq (fs : StaticalFS) (dn : String) (fnames : List String) :
    ∀ (n i : Nat), i + n ≤ fnames.length →
      readLoop fs dn fnames i n =
        ((fnames.drop i).take n).map
          (fun nm => ((alGet fs.Files (pJoin dn nm)).getD zeroFile).info) := by
  intro n
  induction n with
  | zero => intro i _; simp [readLoop]
  | succ n ih =>
    intro i hle
    have hi : i < fnames.length := by omega
    rw [readLoop, List.drop_eq_getElem_cons hi, List.take_succ_cons, List.map_cons]
    congr 1
    · have hgd : fnames.getD i "" = fnames[i] := by
        rw [List.getD_eq_getElem?_getD, List.getElem?_eq_getElem hi]
        rfl
      rw [hgd]
    · exact ih (i + 1) (by omega)

theorem wrapInt64_eq_self (x : Int) (h0 : -2 ^ 63 ≤ x) (h1 : x ≤ 2 ^ 63 - 1) :
    wrapInt64 x = x := by
  unfold wrapInt64
  omega

theorem wrapInt64_le_of_nonneg (x : Int) (h0 : 0 ≤ x) : wrapInt64 x ≤ x := by
  unfold wrapInt64
  omega

theorem wrapInt64_neg_of_overflow (x : Int) (h0 : 2 ^ 63 ≤ x) (h1 : x ≤ 2 ^ 64 - 2) :
    wrapInt64 x < 0 := by
  unfold wrapInt64
  omega

theorem Readdir_dirInfo (fs : StaticalFS) (f : HttpFile) (dn : String) (count : Int)
    (hdir : f.isDirFlag = true) (hinfo : f.file.info = .dirInfo dn) :
    Readdir fs f count =
      (let fnames := (alGet fs.Dirs dn).getD []
       let flen := fnames.length
       let start := f.dirIdx
       if flen ≤ start ∧ 0 < count then ([], some .eof, f)
       else
         let stop0 : Int :=
           if count < 0 then (flen : Int) else wrapInt64 ((start : Int) + count)
         let stop : Int := if (flen : Int) < stop0 then (flen : Int) else stop0
         let fis := readLoop fs dn fnames start (stop - (start : Int)).toNat
         (fis, none, { f with dirIdx := f.dirIdx + fis.length })) := by
  unfold Readdir
  rw [hdir, hinfo]
  simp

/-! ### Claim C4. -/

/-- C4 (amended): for every directory handle whose metadata is the
synthesized `dirInfo` (the counterexample shows the claim fails on directory
handles carrying archive-provided metadata) and every `count > 0` whose sum
with the cursor stays within the 64-bit `int` range, `Readdir` returns up to
`count` entries starting at the cursor and advances the cursor by the number
returned, and fails with `io.EOF` when the cursor is at or past the end; a
positive `count` that overflows `start + count` wraps to a negative stop
index and yields an empty success with the cursor unmoved; in particular the
`["a","b","c"]` pagination example behaves exactly as the claim says. -/
theorem c4_readdir_positive (fs : StaticalFS) (f : HttpFile) (dn : String) (count : Int)
    (hdir : f.isDirFlag = true) (hinfo : f.file.info = .dirInfo dn) (hpos : 0 < count) :
    (((alGet fs.Dirs dn).getD []).length ≤ f.dirIdx →
       Readdir fs f count = ([], some .eof, f)) ∧
    (f.dirIdx < ((alGet fs.Dirs dn).getD []).length →
       (f.dirIdx : Int) + count ≤ 2 ^ 63 - 1 →
       Readdir fs f count =
         (((((alGet fs.Dirs dn).getD []).drop f.dirIdx).take count.toNat).map (childInfo fs dn),
          none,
          { f with dirIdx := f.dirIdx +
              (((((alGet fs.Dirs dn).getD []).drop f.dirIdx).take count.toNat).map
                (childInfo fs dn)).length })) ∧
    (f.dirIdx < ((alGet fs.Dirs dn).getD []).length →
       (f.dirIdx : Int) ≤ 2 ^ 63 - 1 → count ≤ 2 ^ 63 - 1 →
       2 ^ 63 ≤ (f.dirIdx : Int) + count →
       Readdir fs f count = ([], none, f)) ∧
    ((Readdir pagFS pagHandle 2).1 =
        [.archive "d/a" false, .archive "d/b" false] ∧
     (Readdir pagFS (Readdir pagFS pagHandle 2).2.2 2).1 = [.archive "d/c" false] ∧
     (Readdir pagFS (Readdir pagFS (Readdir pagFS pagHandle 2).2.2 2).2.2 2).2.1 =
        some .eof) := by
  rw [Readdir_dirInfo fs f dn count hdir hinfo]
  refine ⟨?_, ?_, ?_, by decide, by decide, by decide⟩
  · intro hle
    rw [if_pos ⟨hle, hpos⟩]
  · intro hlt hnoovf
    rw [if_neg (fun hc => absurd hlt (by omega))]
    have hc0 : ¬ count < 0 := by omega
    rw [if_neg hc0]
    rw [wrapInt64_eq_self ((f.dirIdx : Int) + count) (by omega) hnoovf]
    set fnames := (alGet fs.Dirs dn).getD [] with hfn
    have hloop : readLoop fs dn fnames f.dirIdx
        (((if (fnames.length : Int) < (f.dirIdx : Int) + count then (fnames.length : Int)
           else (f.dirIdx : Int) + count) - (f.dirIdx : Int)).toNat) =
        ((fnames.drop f.dirIdx).take count.toNat).map (childInfo fs dn) := by
      by_cases hcase : (fnames.length : Int) < (f.dirIdx : Int) + count
      · rw [if_pos hcase]
        rw [readLoop_eq fs dn fnames _ _ (by omega)]
        have hd1 : (fnames.drop f.dirIdx).length ≤
            (((fnames.length : Int) - (f.dirIdx : Int)).toNat) := by
          rw [List.length_drop]
          omega
        have hd2 : (fnames.drop f.dirIdx).length ≤ count.toNat := by
          rw [List.length_drop]
          omega
        rw [List.take_of_length_le hd1, List.take_of_length_le hd2]
        rfl
      · rw [if_neg hcase]
        have harith : (((f.dirIdx : Int) + count - (f.dirIdx : Int)).toNat) = count.toNat := by
          omega
        rw [harith, readLoop_eq fs dn fnames _ _ (by omega)]
        rfl
    simp only []
    rw [hloop]
  · intro hlt hstart hcount hovf
    rw [if_neg (fun hc => absurd hlt (by omega))]
    have hc0 : ¬ count < 0 := by omega
    rw [if_neg hc0]
    have hw : wrapInt64 ((f.dirIdx : Int) + count) < 0 :=
      wrapInt64_neg_of_overflow _ hovf (by omega)
    simp only []
    rw [if_neg (by omega)]
    have hn0 : ((wrapInt64 ((f.dirIdx : Int) + count)) - (f.dirIdx : Int)).toNat = 0 := by
      omega
    rw [hn0]
    simp [readLoop]

/-- Witness for C4: on the `["a","b","c"]` directory with the cursor at the
end, a positive-count call fails with `io.EOF`. -/
theorem c4_readdir_positive_witness :
    ((HttpFile.mk pagHandle.file pagHandle.reader pagHandle.isDirFlag 3).isDirFlag = true ∧
     (HttpFile.mk pagHandle.file pagHandle.reader pagHandle.isDirFlag 3).file.info =
       .dirInfo "/d" ∧ (0 : Int) < 2 ∧
     ((alGet pagFS.Dirs "/d").getD []).length ≤ 3) ∧
    Readdir pagFS (HttpFile.mk pagHandle.file pagHandle.reader pagHandle.isDirFlag 3) 2 =
      ([], some .eof, HttpFile.mk pagHandle.file pagHandle.reader pagHandle.isDirFlag 3) :=
  ⟨⟨by decide, by decide, by decide, by decide⟩,
   (c4_readdir_positive pagFS
      (HttpFile.mk pagHandle.file pagHandle.reader pagHandle.isDirFlag 3) "/d" 2
      (by decide) (by decide) (by decide)).1 (by decide)⟩

/-- Counterexample to C4 as stated: `/d` of `exDirFS` is a directory handle
obtained by `Open`, its directory has the child `x` and the cursor is at 0,
yet `Readdir` with `count = 2` returns the internal failed-to-read error —
neither a page of entries nor `io.EOF`. -/
theorem c4_counterexample :
    exDirHandle.isDirFlag = true ∧
    Open exDirFS "/d" = .ok exDirHandle ∧
    (alGet exDirFS.Dirs "/d").getD [] = ["x"] ∧ exDirHandle.dirIdx = 0 ∧
    Readdir exDirFS exDirHandle 2 = ([], some (.failedToReadDir "d"), exDirHandle) ∧
    GoErr.failedToReadDir "d" ≠ GoErr.eof :=
  ⟨by decide, rfl, by decide, by decide, by decide, by decide⟩

/-! ### Claim C2. -/

/-- C2 (amended): for every directory handle whose metadata is the
synthesized `dirInfo`, a call with `count < 0` returns all entries remaining
from the cursor (empty if already exhausted), advances the cursor to the
end, and never fails; a second call with negative count then returns an
empty sequence without error; a call with `count = 0`, however, returns an
empty sequence without error and without advancing the cursor — not the
remaining entries, as the counterexample shows — so the claim's `count ≤ 0`
must be narrowed to `count < 0`. -/
theorem c2_readdir_nonpositive (fs : StaticalFS) (f : HttpFile) (dn : String)
    (hdir : f.isDirFlag = true) (hinfo : f.file.info = .dirInfo dn) :
    (∀ count : Int, count < 0 →
       Readdir fs f count =
         ((((alGet fs.Dirs dn).getD []).drop f.dirIdx).map (childInfo fs dn),
          none,
          { f with dirIdx := f.dirIdx +
              ((((alGet fs.Dirs dn).getD []).drop f.dirIdx).map (childInfo fs dn)).length })) ∧
    (∀ count count' : Int, count < 0 → count' < 0 →
       (Readdir fs (Readdir fs f count).2.2 count').1 = [] ∧
       (Readdir fs (Readdir fs f count).2.2 count').2.1 = none) ∧
    (Readdir fs f 0 = ([], none, f)) := by
  have hmain : ∀ (g : HttpFile), g.isDirFlag = true → g.file.info = .dirInfo dn →
      ∀ count : Int, count < 0 →
      Readdir fs g count =
        ((((alGet fs.Dirs dn).getD []).drop g.dirIdx).map (childInfo fs dn),
         none,
         { g with dirIdx := g.dirIdx +
             ((((alGet fs.Dirs dn).getD []).drop g.dirIdx).map (childInfo fs dn)).length }) := by
    intro g hgdir hginfo count hneg
    rw [Readdir_dirInfo fs g dn count hgdir hginfo]
    simp only []
    rw [if_neg (fun hc => absurd hc.2 (by omega)), if_pos hneg, if_neg (lt_irrefl _)]
    set fnames := (alGet fs.Dirs dn).getD [] with hfn
    by_cases hs : g.dirIdx ≤ fnames.length
    · have hloop : readLoop fs dn fnames g.dirIdx
          (((fnames.length : Int) - (g.dirIdx : Int)).toNat) =
          (fnames.drop g.dirIdx).map (childInfo fs dn) := by
        rw [readLoop_eq fs dn fnames _ _ (by omega)]
        rw [List.take_of_length_le (by rw [List.length_drop]; omega)]
        rfl
      rw [hloop]
    · have hn0 : (((fnames.length : Int) - (g.dirIdx : Int)).toNat) = 0 := by omega
      have hdrop : fnames.drop g.dirIdx = [] := List.drop_eq_nil_of_le (by omega)
      rw [hn0, hdrop]
      simp [readLoop]
  refine ⟨fun count hneg => hmain f hdir hinfo count hneg, ?_, ?_⟩
  · intro count count' hneg hneg'
    rw [hmain f hdir hinfo count hneg]
    simp only []
    rw [hmain (HttpFile.mk f.file f.reader f.isDirFlag
          (f.dirIdx + ((((alGet fs.Dirs dn).getD []).drop f.dirIdx).map (childInfo fs dn)).length))
        hdir hinfo count' hneg']
    have hdrop : ((alGet fs.Dirs dn).getD []).drop
        (f.dirIdx + ((((alGet fs.Dirs dn).getD []).drop f.dirIdx).map (childInfo fs dn)).length)
        = [] := by
      apply List.drop_eq_nil_of_le
      rw [List.length_map, List.length_drop]
      omega
    rw [hdrop]
    exact ⟨rfl, rfl⟩
  · rw [Readdir_dirInfo fs f dn 0 hdir hinfo]
    simp only []
    rw [if_neg (fun hc => absurd hc.2 (by omega))]
    rw [if_neg (show ¬ (0 : Int) < 0 by omega)]
    have hwle : wrapInt64 ((f.dirIdx : Int) + 0) ≤ (f.dirIdx : Int) :=
      wrapInt64_le_of_nonneg _ (by omega)
    have hn0 : ((if (((alGet fs.Dirs dn).getD []).length : Int) <
          wrapInt64 ((f.dirIdx : Int) + 0)
        then (((alGet fs.Dirs dn).getD []).length : Int)
        else wrapInt64 ((f.dirIdx : Int) + 0)) - (f.dirIdx : Int)).toNat = 0 := by
      split <;> omega
    rw [hn0]
    simp [readLoop]

/-- Witness for C2: on the `["a","b","c"]` directory handle at cursor 0,
`Readdir` with `count = -1` drains the whole listing. -/
theorem c2_readdir_nonpositive_witness :
    (pagHandle.isDirFlag = true ∧ pagHandle.file.info = .dirInfo "/d" ∧ ((-1 : Int) < 0)) ∧
    Readdir pagFS pagHandle (-1) =
      ((((alGet pagFS.Dirs "/d").getD []).drop pagHandle.dirIdx).map (childInfo pagFS "/d"),
       none,
       { pagHandle with dirIdx := pagHandle.dirIdx +
           ((((alGet pagFS.Dirs "/d").getD []).drop pagHandle.dirIdx).map
             (childInfo pagFS "/d")).length }) :=
  ⟨⟨by decide, by decide, by decide⟩,
   (c2_readdir_nonpositive pagFS pagHandle "/d" (by decide) (by decide)).1 (-1) (by decide)⟩

/-- Counterexample to C2 as stated, in both failure modes. First, with
`count = 0` (which the claim covers via `count ≤ 0`) on a directory with
three remaining entries, `Readdir` returns the empty sequence and leaves the
cursor at 0 instead of returning the remaining entries and advancing.
Second, on a directory handle whose metadata is an archive-provided
directory record, a `count = -1` call fails with the internal error instead
of returning the remaining entries. -/
theorem c2_counterexample :
    ((alGet pagFS.Dirs "/d").getD [] = ["a", "b", "c"] ∧ pagHandle.dirIdx = 0 ∧
     Readdir pagFS pagHandle 0 = ([], none, pagHandle)) ∧
    (exDirHandle.isDirFlag = true ∧
     (alGet exDirFS.Dirs "/d").getD [] = ["x"] ∧
     Readdir exDirFS exDirHandle (-1) =
       ([], some (.failedToReadDir "d"), exDirHandle)) :=
  ⟨⟨by decide, by decide, by decide⟩, ⟨by decide, by decide, by decide⟩⟩

/-! ### Claim C5. -/

theorem collapseSlashes_of_noDouble : ∀ l : List Char,
    hasDoubleSlash l = false → collapseSlashes l = l := by
  intro l
  induction l with
  | nil => intro _; rfl
  | cons c rest ih =>
    intro h
    cases rest with
    | nil => rfl
    | cons c2 rest2 =>
      rw [hasDoubleSlash] at h
      by_cases hc : c = '/' ∧ c2 = '/'
      · rw [if_pos hc] at h
        cases h
      · rw [if_neg hc] at h
        rw [collapseSlashes, if_neg hc, ih h]

theorem goReplaceDouble_eq_self (s : String) (h : hasDoubleSlash s.data = false) :
    goReplaceDouble s = s := by
  cases s with
  | mk d => exact congrArg String.mk (collapseSlashes_of_noDouble d h)

/-- C5 (amended): for every file entry registered in the constructed entries
map with content `C` at a path `p` holding no doubled separator, `Open p`
succeeds and a full read of the handle yields exactly `C`. (The
counterexample shows the proviso is needed: a registered path containing
`//` can never be opened, because `Open` collapses doubled separators in the
queried name before the lookup.) -/
theorem c5_roundtrip (rs : List ZRecord) (fs : StaticalFS) (p : String) (f : File)
    (_hbuild : buildFS rs = .ok fs)
    (hreg : alGet fs.Files p = some f) (hfile : f.info.goIsDir = false)
    (hnd : hasDoubleSlash p.data = false) :
    Open fs p = .ok (newHTTPFile f) ∧ readAll (newHTTPFile f) = f.data := by
  constructor
  · unfold Open
    rw [goReplaceDouble_eq_self p hnd, hreg]
  · have hne : ¬ f.info.goIsDir = true := by
      rw [hfile]
      exact Bool.false_ne_true
    unfold newHTTPFile
    rw [if_neg hne]
    simp [readAll]

/-- Witness for C5: reading back `/public/hello.txt` from the spec's example
archive yields its registered bytes. -/
theorem c5_roundtrip_witness :
    (buildFS exRecs = .ok exFS ∧
     alGet exFS.Files "/public/hello.txt" =
       some ⟨.archive "public/hello.txt" false, [104, 105]⟩ ∧
     (GoFileInfo.archive "public/hello.txt" false).goIsDir = false ∧
     hasDoubleSlash "/public/hello.txt".data = false) ∧
    (Open exFS "/public/hello.txt" =
       .ok (newHTTPFile ⟨.archive "public/hello.txt" false, [104, 105]⟩) ∧
     readAll (newHTTPFile ⟨.archive "public/hello.txt" false, [104, 105]⟩) = [104, 105]) :=
  ⟨⟨rfl, by decide, rfl, by decide⟩,
   c5_roundtrip exRecs exFS "/public/hello.txt"
     ⟨.archive "public/hello.txt" false, [104, 105]⟩ rfl (by decide) rfl (by decide)⟩

/-- Counterexample to C5 as stated: the archive registers the regular file
`a//b` (content `[5]`) at path `/a//b`, but `Open` on exactly that path
fails with not-exist, because the query is normalized to `/a/b` first. -/
theorem c5_counterexample :
    alGet doubleCexFS.Files "/a//b" = some ⟨.archive "a//b" false, [5]⟩ ∧
    (GoFileInfo.archive "a//b" false).goIsDir = false ∧
    Open doubleCexFS "/a//b" = .error .notExist :=
  ⟨by decide, rfl, rfl⟩

/-! ### Claim C6. -/

/-- C6 (confirmed): `Open` looks up exactly the normalized name in the
entries map: it fails with not-exist precisely when the normalized name is
absent, a successful open hands back the entry stored at the normalized
name itself, and — as the concrete conjunct shows on an archive holding
`d/index.html` — opening the directory `/d` answers the directory entry,
with no index-document substitution. -/
theorem c6_open_exact_lookup (fs : StaticalFS) (name : String) :
    ((Open fs name = .error .notExist) ↔ alGet fs.Files (goReplaceDouble name) = none) ∧
    (∀ h : HttpFile, Open fs name = .ok h →
       alGet fs.Files (goReplaceDouble name) = some h.file) ∧
    (Open idxFS "/d" = .ok (newHTTPFile ⟨.dirInfo "/d", []⟩) ∧
     (newHTTPFile ⟨.dirInfo "/d", []⟩).isDirFlag = true ∧
     alGet idxFS.Files "/d/index.html" ≠ none) := by
  refine ⟨?_, ?_, rfl, by decide, by decide⟩
  · unfold Open
    rcases h : alGet fs.Files (goReplaceDouble name) with _ | f
    · simp
    · simp
  · intro h
    unfold Open
    rcases hg : alGet fs.Files (goReplaceDouble name) with _ | f
    · intro hc
      cases hc
    · intro hc
      injection hc with hc
      rw [← hc]
      have hfile : (newHTTPFile f).file = f := by
        unfold newHTTPFile
        split <;> rfl
      rw [hfile]

/-- Witness for C6: a missing path maps to not-exist via the equivalence. -/
theorem c6_open_exact_lookup_witness :
    alGet exFS.Files (goReplaceDouble "/nope") = none ∧
    Open exFS "/nope" = .error .notExist :=
  ⟨by decide, (c6_open_exact_lookup exFS "/nope").1.mpr (by decide)⟩

/-! ### Claim C7. -/

/-- C7 (confirmed): `Open` normalizes by collapsing doubled separators in a
single left-to-right pass — quadrupled separators collapse only to doubled
ones and `.`/`..` segments are untouched — and consequently
`Open "/public//hello.txt"` behaves identically to
`Open "/public/hello.txt"` on every tree. -/
theorem c7_single_pass_collapse :
    goReplaceDouble "/public//hello.txt" = "/public/hello.txt" ∧
    goReplaceDouble "/a////b" = "/a//b" ∧
    goReplaceDouble "/a/../b" = "/a/../b" ∧
    (∀ fs : StaticalFS, Open fs "/public//hello.txt" = Open fs "/public/hello.txt") := by
  refine ⟨by decide, by decide, by decide, ?_⟩
  intro fs
  unfold Open
  have h : goReplaceDouble "/public//hello.txt" = "/public/hello.txt" := by decide
  rw [h]
  have h2 : goReplaceDouble "/public/hello.txt" = "/public/hello.txt" := by decide
  rw [h2]

/-! ### Claim C8. -/

theorem buildFilesLoop_err : ∀ (rs : List ZRecord) (acc : List (String × File)) (e : NewErr),
    buildFilesLoop acc rs = .error e → ∃ nm msg, e = .extract nm msg := by
  intro rs
  induction rs with
  | nil =>
    intro acc e h
    rw [buildFilesLoop] at h
    cases h
  | cons r rest ih =>
    intro acc e h
    rw [buildFilesLoop] at h
    rcases hu : r.unzipped with msg | d
    · rw [hu] at h
      injection h with h
      exact ⟨r.name, msg, h.symm⟩
    · rw [hu] at h
      exact ih _ e h

/-- C8 (confirmed): building without a prior registration (the `ZipData`
variable still holds its initial empty value) fails with the
not-configured error, and after registering any non-empty blob the build
never fails with not-configured (it may fail differently — corrupt archive
or failed extraction — but not with that error). -/
theorem c8_not_configured :
    (∀ parse : String → Except String (List ZRecord),
       NewFS parse initialZipData = .error .notConfigured) ∧
    (∀ (parse : String → Except String (List ZRecord)) (s d : String), d ≠ "" →
       NewFS parse (Register d s) ≠ .error .notConfigured) := by
  constructor
  · intro parse
    rfl
  · intro parse s d hd
    unfold NewFS Register
    rw [if_neg hd]
    rcases hp : parse d with e | rs
    · intro hc
      injection hc with hc
      cases hc
    · show buildFS rs ≠ Except.error NewErr.notConfigured
      intro hc
      unfold buildFS at hc
      rcases hb : buildFilesLoop [] rs with e' | m
      · rw [hb] at hc
        injection hc with hc
        obtain ⟨nm, msg, hx⟩ := buildFilesLoop_err rs [] e' hb
        rw [hx] at hc
        cases hc
      · rw [hb] at hc
        cases hc

/-- Witness for C8: registering the non-empty blob `x` makes the build (with
a parser returning the empty record list) succeed, in particular not fail
with not-configured. -/
theorem c8_not_configured_witness :
    "x" ≠ "" ∧
    NewFS (fun _ => .ok []) (Register "x" initialZipData) ≠ .error .notConfigured :=
  ⟨by decide, c8_not_configured.2 (fun _ => .ok []) initialZipData "x" (by decide)⟩

/-! ### Claim C9. -/

/-- C9 (confirmed): every handle obtained by opening a directory path has a
nil byte reader; `Read` on it returns zero bytes with `io.EOF`, while `Seek`
dereferences the nil reader and crashes (modelled as `none`); on a handle
opened on a regular file the reader is present and `Seek` never crashes. -/
theorem c9_dir_seek_crashes (fs : StaticalFS) (name : String) (h : HttpFile)
    (hopen : Open fs name = .ok h) :
    (h.isDirFlag = true →
       h.reader = none ∧
       (∀ n, Read h n = some (([], some .eof), h)) ∧
       (∀ off whence, Seek h off whence = none)) ∧
    (h.isDirFlag = false →
       (∃ r, h.reader = some r) ∧ (∀ off whence, Seek h off whence ≠ none)) := by
  unfold Open at hopen
  rcases hg : alGet fs.Files (goReplaceDouble name) with _ | f
  · rw [hg] at hopen
    cases hopen
  · rw [hg] at hopen
    injection hopen with hh
    subst hh
    unfold newHTTPFile
    by_cases hd : f.info.goIsDir = true
    · rw [if_pos hd]
      constructor
      · intro _
        refine ⟨rfl, fun n => rfl, fun off whence => rfl⟩
      · intro hc
        simp at hc
    · rw [if_neg hd]
      constructor
      · intro hc
        simp at hc
      · intro _
        refine ⟨⟨⟨f.data, 0⟩, rfl⟩, ?_⟩
        intro off whence
        unfold Seek
        simp only []
        split_ifs <;> simp

/-- Witness for C9: the directory handle on `/public` of the example tree
has a nil reader and `Seek` on it crashes. -/
theorem c9_dir_seek_crashes_witness :
    (Open exFS "/public" = .ok pubHandle ∧ pubHandle.isDirFlag = true) ∧
    (pubHandle.reader = none ∧ Seek pubHandle 0 0 = none) :=
  ⟨⟨rfl, by decide⟩,
   by
     have hc := (c9_dir_seek_crashes exFS "/public" pubHandle rfl).1 (by decide)
     exact ⟨hc.1, hc.2.2 0 0⟩⟩

/-! ### Claim C10. -/

/-- C10 (confirmed): when the archive itself contains an explicit directory
record, so the entry's metadata comes from the archive rather than from
synthesis, `Readdir` on that directory's handle fails with the internal
failed-to-read-directory error for every count, instead of listing. -/
theorem c10_explicit_dir_readdir_fails (rs : List ZRecord) (fs : StaticalFS)
    (p nm : String) (f : File)
    (_hbuild : buildFS rs = .ok fs)
    (_hget : alGet fs.Files p = some f) (hinfo : f.info = .archive nm true) :
    ∀ count : Int, Readdir fs (newHTTPFile f) count =
      ([], some (.failedToReadDir (pBase nm)), newHTTPFile f) := by
  intro count
  have hIsDir : f.info.goIsDir = true := by
    rw [hinfo]
    rfl
  have hh : newHTTPFile f = ⟨f, none, true, 0⟩ := by
    unfold newHTTPFile
    rw [if_pos hIsDir]
  rw [hh]
  unfold Readdir
  simp [hinfo, GoFileInfo.goName]

/-- Witness for C10: the archive `[d/, d/x]` carries an explicit directory
record at `/d`; `Readdir` on its handle errors for `count = 5`. -/
theorem c10_explicit_dir_readdir_fails_witness :
    (buildFS exDirRecs = .ok exDirFS ∧
     alGet exDirFS.Files "/d" = some ⟨.archive "d" true, []⟩ ∧
     (File.mk (.archive "d" true) []).info = .archive "d" true) ∧
    Readdir exDirFS (newHTTPFile ⟨.archive "d" true, []⟩) 5 =
      ([], some (.failedToReadDir (pBase "d")), newHTTPFile ⟨.archive "d" true, []⟩) :=
  ⟨⟨rfl, by decide, rfl⟩,
   c10_explicit_dir_readdir_fails exDirRecs exDirFS "/d" "d"
     ⟨.archive "d" true, []⟩ rfl (by decide) rfl 5⟩

end Statical
